import Mathlib

/-!
Verification of the Capitrack valuation and reconstruction engine.

Shallow embedding of the core routines of the repository: the dashboard
summary, quote cache, batch quotes, portfolio-history reconstruction and
daily-wealth snapshot of `src/routes/prices.ts`, the currency conversion of
`src/routes/currencies.ts`, and the CSV import deduplication pipeline.
Quantities, prices and rates are embedded as exact rationals; calendar dates
as natural numbers (ISO day strings compare lexicographically, which is
order-isomorphic to the day ordering used here).
-/

set_option linter.unnecessarySeqFocus false
set_option linter.unusedVariables false

namespace Capitrack

/-- The seven transaction types allowed by the ledger schema
(`CHECK(type IN ('buy','sell','transfer_in','transfer_out','dividend','interest','fee'))`). -/
inductive TxType
  | buy
  | sell
  | transfer_in
  | transfer_out
  | dividend
  | interest
  | fee
  deriving DecidableEq, Repr

/-- A ledger transaction row (`transactions` table). -/
structure Tx where
  account_id : Nat
  symbol : String
  type : TxType
  quantity : ℚ
  price : ℚ
  fee : ℚ
  date : Nat
  notes : String
  deriving DecidableEq, Repr

/-- `t.type IN ('buy','transfer_in')` — the acquiring type class. -/
def isAcquiring : TxType → Bool
  | .buy => true
  | .transfer_in => true
  | _ => false

/-- `t.type IN ('sell','transfer_out')` — the disposing type class. -/
def isDisposing : TxType → Bool
  | .sell => true
  | .transfer_out => true
  | _ => false

/-- The activity threshold of the `HAVING quantity > 0.00000001` clause. -/
def eps : ℚ := 1 / 100000000

/-- Accumulator of the three SQL `SUM` aggregates computed over one
`(symbol, account)` group by the dashboard-summary holdings query. -/
structure AggState where
  acqQty : ℚ
  dispQty : ℚ
  acqNotional : ℚ
  deriving Repr

/-- One step of the grouped aggregation: add the transaction's contribution to
each of the three `SUM(CASE WHEN ...)` aggregates. -/
def aggStep (s : AggState) (t : Tx) : AggState where
  acqQty := s.acqQty + (if isAcquiring t.type then t.quantity else 0)
  dispQty := s.dispQty + (if isDisposing t.type then t.quantity else 0)
  acqNotional := s.acqNotional + (if isAcquiring t.type then t.quantity * t.price else 0)

/-- Single pass over one group's transactions. -/
def aggregate (txs : List Tx) : AggState := txs.foldl aggStep ⟨0, 0, 0⟩

/-- The `quantity` column: `SUM(acquiring qty) - SUM(disposing qty)`. -/
def holdingQuantity (txs : List Tx) : ℚ :=
  (aggregate txs).acqQty - (aggregate txs).dispQty

/-- The `avg_cost` column:
`SUM(acquiring qty*price) / NULLIF(SUM(acquiring qty), 0)` — SQL `NULLIF`
makes the result `NULL` when the acquiring quantity sum is zero. -/
def avgCost (txs : List Tx) : Option ℚ :=
  if (aggregate txs).acqQty = 0 then none
  else some ((aggregate txs).acqNotional / (aggregate txs).acqQty)

/-- The transactions of one `GROUP BY t.symbol, a.id` group. -/
def groupOf (txs : List Tx) (k : String × Nat) : List Tx :=
  txs.filter fun t => t.symbol = k.1 && t.account_id = k.2

/-- The distinct `(symbol, account)` keys produced by `GROUP BY`. -/
def txKeys (txs : List Tx) : List (String × Nat) :=
  (txs.map fun t => (t.symbol, t.account_id)).dedup

/-- The keys surviving the `HAVING quantity > 0.00000001` clause: the
`(symbol, account)` pairs reported as holdings. -/
def holdingsKeys (txs : List Tx) : List (String × Nat) :=
  (txKeys txs).filter fun k => eps < holdingQuantity (groupOf txs k)

/-- Specification-side sum: total quantity over acquiring transactions. -/
def acquiredSum (txs : List Tx) : ℚ :=
  ((txs.filter fun t => isAcquiring t.type).map Tx.quantity).sum

/-- Specification-side sum: total quantity over disposing transactions. -/
def disposedSum (txs : List Tx) : ℚ :=
  ((txs.filter fun t => isDisposing t.type).map Tx.quantity).sum

/-- Specification-side sum: total `quantity*price` over acquiring
transactions. -/
def acquiredNotional (txs : List Tx) : ℚ :=
  ((txs.filter fun t => isAcquiring t.type).map fun t => t.quantity * t.price).sum

theorem foldl_aggStep_acqQty (txs : List Tx) (s : AggState) :
    (txs.foldl aggStep s).acqQty = s.acqQty + acquiredSum txs := by
  induction txs generalizing s with
  | nil => simp [acquiredSum]
  | cons t ts ih =>
    rw [List.foldl_cons, ih]
    by_cases h : isAcquiring t.type <;>
      simp [acquiredSum, aggStep, List.filter_cons, h] <;> ring

theorem foldl_aggStep_dispQty (txs : List Tx) (s : AggState) :
    (txs.foldl aggStep s).dispQty = s.dispQty + disposedSum txs := by
  induction txs generalizing s with
  | nil => simp [disposedSum]
  | cons t ts ih =>
    rw [List.foldl_cons, ih]
    by_cases h : isDisposing t.type <;>
      simp [disposedSum, aggStep, List.filter_cons, h] <;> ring

theorem foldl_aggStep_acqNotional (txs : List Tx) (s : AggState) :
    (txs.foldl aggStep s).acqNotional = s.acqNotional + acquiredNotional txs := by
  induction txs generalizing s with
  | nil => simp [acquiredNotional]
  | cons t ts ih =>
    rw [List.foldl_cons, ih]
    by_cases h : isAcquiring t.type <;>
      simp [acquiredNotional, aggStep, List.filter_cons, h] <;> ring

theorem aggregate_acqQty (txs : List Tx) : (aggregate txs).acqQty = acquiredSum txs := by
  simpa using foldl_aggStep_acqQty txs ⟨0, 0, 0⟩

theorem aggregate_dispQty (txs : List Tx) : (aggregate txs).dispQty = disposedSum txs := by
  simpa using foldl_aggStep_dispQty txs ⟨0, 0, 0⟩

theorem aggregate_acqNotional (txs : List Tx) :
    (aggregate txs).acqNotional = acquiredNotional txs := by
  simpa using foldl_aggStep_acqNotional txs ⟨0, 0, 0⟩

/-- **C1.** For every set of transactions grouped by `(symbol, account)`:
the reported `quantity` is the sum of quantities of buy and transfer_in
transactions minus the sum of quantities of sell and transfer_out
transactions; `avg_cost` is the acquisition notional divided by the total
acquiring quantity whenever the latter is nonzero, and undefined when the
group has no acquiring transactions; and a `(symbol, account)` pair is
reported as a holding iff it occurs in the ledger and its computed quantity
exceeds `1e-8`. -/
theorem holdings_aggregator_correct (txs : List Tx) (k : String × Nat) :
    holdingQuantity (groupOf txs k) =
      acquiredSum (groupOf txs k) - disposedSum (groupOf txs k)
    ∧ (acquiredSum (groupOf txs k) ≠ 0 →
        avgCost (groupOf txs k) =
          some (acquiredNotional (groupOf txs k) / acquiredSum (groupOf txs k)))
    ∧ ((groupOf txs k).filter (fun t => isAcquiring t.type) = [] →
        avgCost (groupOf txs k) = none)
    ∧ (k ∈ holdingsKeys txs ↔
        (∃ t ∈ txs, (t.symbol, t.account_id) = k)
          ∧ eps < holdingQuantity (groupOf txs k)) := by
  refine ⟨?_, ?_, ?_, ?_⟩
  · rw [holdingQuantity, aggregate_acqQty, aggregate_dispQty]
  · intro h
    rw [avgCost, aggregate_acqQty, aggregate_acqNotional, if_neg h]
  · intro h
    have hz : acquiredSum (groupOf txs k) = 0 := by
      rw [acquiredSum, h]; simp
    rw [avgCost, aggregate_acqQty, if_pos hz]
  · constructor
    · intro h
      rw [holdingsKeys, List.mem_filter] at h
      refine ⟨?_, by simpa using h.2⟩
      rcases h with ⟨hk, _⟩
      rw [txKeys, List.mem_dedup, List.mem_map] at hk
      rcases hk with ⟨t, ht, hEq⟩
      exact ⟨t, ht, hEq⟩
    · rintro ⟨⟨t, ht, hEq⟩, hq⟩
      rw [holdingsKeys, List.mem_filter]
      refine ⟨?_, by simpa using hq⟩
      rw [txKeys, List.mem_dedup, List.mem_map]
      exact ⟨t, ht, hEq⟩

/-- Concrete instantiation of `holdings_aggregator_correct`: two buys and a
sell of AAPL in account 1 give quantity `12`, average cost `150`, and an
active holding. -/
theorem holdings_aggregator_correct_witness :
    acquiredSum (groupOf
        [⟨1, "AAPL", .buy, 10, 100, 0, 1, ""⟩,
         ⟨1, "AAPL", .buy, 5, 250, 0, 2, ""⟩,
         ⟨1, "AAPL", .sell, 3, 180, 0, 3, ""⟩] ("AAPL", 1)) ≠ 0
    ∧ avgCost (groupOf
        [⟨1, "AAPL", .buy, 10, 100, 0, 1, ""⟩,
         ⟨1, "AAPL", .buy, 5, 250, 0, 2, ""⟩,
         ⟨1, "AAPL", .sell, 3, 180, 0, 3, ""⟩] ("AAPL", 1)) = some 150 := by
  have h := holdings_aggregator_correct
    [⟨1, "AAPL", .buy, 10, 100, 0, 1, ""⟩,
     ⟨1, "AAPL", .buy, 5, 250, 0, 2, ""⟩,
     ⟨1, "AAPL", .sell, 3, 180, 0, 3, ""⟩] ("AAPL", 1)
  have hne : acquiredSum (groupOf
      [⟨1, "AAPL", .buy, 10, 100, 0, 1, ""⟩,
       ⟨1, "AAPL", .buy, 5, 250, 0, 2, ""⟩,
       ⟨1, "AAPL", .sell, 3, 180, 0, 3, ""⟩] ("AAPL", 1)) ≠ 0 := by
    norm_num [acquiredSum, groupOf, isAcquiring, List.filter_cons]
  refine ⟨hne, ?_⟩
  rw [h.2.1 hne]
  norm_num [acquiredNotional, acquiredSum, groupOf, isAcquiring, List.filter_cons]

/-! ## Dashboard summary (`GET /dashboard/summary`) -/

/-- A holdings row as returned by the dashboard-summary holdings query
(`symbol, account_id, account_name, account_currency, quantity, avg_cost`);
`avg_cost` is `none` when SQL produced `NULL`. -/
structure Holding where
  symbol : String
  account_id : Nat
  account_name : String
  account_currency : String
  quantity : ℚ
  avg_cost : Option ℚ
  deriving Repr

/-- The part of a price entry the summary loop reads. -/
structure PriceData where
  price : ℚ
  currency : String
  deriving Repr, DecidableEq

/-- A `currency_rates` row. -/
structure RateRow where
  from_currency : String
  to_currency : String
  rate : ℚ
  deriving Repr

/-- Lookup of `rates[`from_to`]` over the rows; building the JS record lets
later rows overwrite earlier ones with the same key, so the last matching
row wins. -/
def lookupRate : List RateRow → String → String → Option ℚ
  | [], _, _ => none
  | r :: rs, f, t =>
    match lookupRate rs f t with
    | some v => some v
    | none => if r.from_currency = f ∧ r.to_currency = t then some r.rate else none

/-- `rates[rateKey] || 1`: JS `||` turns both a missing key and a stored
zero rate into multiplier 1. -/
def rateOr1 (rates : List RateRow) (f t : String) : ℚ :=
  match lookupRate rates f t with
  | some v => if v = 0 then 1 else v
  | none => 1

/-- `s || d` on strings: the empty string is JS-falsy. -/
def jsOrStr (s d : String) : String := if s = "" then d else s

/-- `prices[h.symbol] || { price: 0, currency: 'USD' }`. -/
def priceFor (prices : String → Option PriceData) (h : Holding) : PriceData :=
  (prices h.symbol).getD ⟨0, "USD"⟩

/-- Converted market value of one holding (summary loop body):
`quantity * price`, multiplied by `rates[priceCurrency_base] || 1` when the
price currency differs from the base currency. -/
def marketValueOf (rates : List RateRow) (base : String)
    (prices : String → Option PriceData) (h : Holding) : ℚ :=
  let pd := priceFor prices h
  let mv := h.quantity * pd.price
  let pCur := jsOrStr pd.currency "USD"
  if pCur ≠ base then mv * rateOr1 rates pCur base else mv

/-- Converted cost basis of one holding (summary loop body):
`quantity * (avg_cost || 0)`, multiplied by `rates[accountCurrency_base] || 1`
when the account currency is truthy and differs from the base currency. -/
def costBasisOf (rates : List RateRow) (base : String) (h : Holding) : ℚ :=
  let cb := h.quantity * (h.avg_cost.getD 0)
  if h.account_currency ≠ "" ∧ h.account_currency ≠ base then
    cb * rateOr1 rates h.account_currency base
  else cb

/-- `totalWealth`: the loop accumulates every holding's converted market
value. -/
def totalWealth (rates : List RateRow) (base : String)
    (prices : String → Option PriceData) (hs : List Holding) : ℚ :=
  (hs.map (marketValueOf rates base prices)).sum

/-- `totalCost`: the loop accumulates every holding's converted cost basis. -/
def totalCost (rates : List RateRow) (base : String)
    (prices : String → Option PriceData) (hs : List Holding) : ℚ :=
  (hs.map (costBasisOf rates base)).sum

/-- `total_gain: totalWealth - totalCost`. -/
def totalGain (rates : List RateRow) (base : String)
    (prices : String → Option PriceData) (hs : List Holding) : ℚ :=
  totalWealth rates base prices hs - totalCost rates base prices hs

/-- `total_gain_percent: totalCost > 0 ? ((totalWealth - totalCost) / totalCost) * 100 : 0`. -/
def totalGainPercent (rates : List RateRow) (base : String)
    (prices : String → Option PriceData) (hs : List Holding) : ℚ :=
  if 0 < totalCost rates base prices hs then
    (totalWealth rates base prices hs - totalCost rates base prices hs)
      / totalCost rates base prices hs * 100
  else 0

/-- The distinct account ids of the `accountSummaries` record. -/
def accountIds (hs : List Holding) : List Nat :=
  (hs.map Holding.account_id).dedup

/-- Per-account `market_value` sub-total. -/
def accountMarketValue (rates : List RateRow) (base : String)
    (prices : String → Option PriceData) (hs : List Holding) (a : Nat) : ℚ :=
  ((hs.filter fun h => h.account_id = a).map (marketValueOf rates base prices)).sum

/-- Per-account `cost_basis` sub-total. -/
def accountCostBasis (rates : List RateRow) (base : String)
    (hs : List Holding) (a : Nat) : ℚ :=
  ((hs.filter fun h => h.account_id = a).map (costBasisOf rates base)).sum

theorem sum_map_ite_eq {β : Type} [DecidableEq β] (ks : List β) (b₀ : β) (v : ℚ)
    (hmem : b₀ ∈ ks) (hnd : ks.Nodup) :
    (ks.map fun b => if b₀ = b then v else 0).sum = v := by
  induction ks with
  | nil => cases hmem
  | cons k ks ih =>
    rcases List.mem_cons.mp hmem with h | h
    · subst h
      have hk : b₀ ∉ ks := (List.nodup_cons.mp hnd).1
      have : (ks.map fun b => if b₀ = b then v else 0).sum = 0 := by
        rw [List.sum_eq_zero]
        intro x hx
        rcases List.mem_map.mp hx with ⟨b, hb, rfl⟩
        have : b₀ ≠ b := fun hEq => hk (hEq ▸ hb)
        simp [this]
      simp [this]
    · have hne : b₀ ≠ k := fun hEq => (List.nodup_cons.mp hnd).1 (hEq ▸ h)
      simp [hne, ih h (List.nodup_cons.mp hnd).2]

theorem sum_fiberwise {α β : Type} [DecidableEq β] (key : α → β) (f : α → ℚ)
    (l : List α) (ks : List β) (hnd : ks.Nodup) (hcov : ∀ x ∈ l, key x ∈ ks) :
    (ks.map fun b => ((l.filter fun x => key x = b).map f).sum).sum
      = (l.map f).sum := by
  induction l with
  | nil => simp
  | cons x l ih =>
    have hx : key x ∈ ks := hcov x (List.mem_cons_self x l)
    have hstep : ∀ b : β,
        (((x :: l).filter fun y => key y = b).map f).sum
          = (if key x = b then f x else 0) + ((l.filter fun y => key y = b).map f).sum := by
      intro b
      by_cases hb : key x = b <;> simp [List.filter_cons, hb]
    calc (ks.map fun b => (((x :: l).filter fun y => key y = b).map f).sum).sum
        = (ks.map fun b =>
            (if key x = b then f x else 0)
              + ((l.filter fun y => key y = b).map f).sum).sum := by
          exact congrArg List.sum (List.map_congr_left fun b _ => hstep b)
      _ = (ks.map fun b => if key x = b then f x else 0).sum
            + (ks.map fun b => ((l.filter fun y => key y = b).map f).sum).sum := by
          rw [← List.sum_map_add]
      _ = f x + (l.map f).sum := by
          rw [sum_map_ite_eq ks (key x) (f x) hx hnd,
            ih fun y hy => hcov y (List.mem_cons_of_mem x hy)]
      _ = ((x :: l).map f).sum := by simp

/-- **C2.** The dashboard summary returns `total_gain = total_wealth -
total_cost`; `total_gain_percent` equals `(wealth - cost)/cost*100` when the
total cost is strictly positive and is exactly `0` when the total cost is
`0` (no division by zero: the quotient branch is guarded); and the
per-account `market_value` and `cost_basis` sub-totals sum to `total_wealth`
and `total_cost` respectively. -/
theorem dashboard_summary_totals (rates : List RateRow) (base : String)
    (prices : String → Option PriceData) (hs : List Holding) :
    totalGain rates base prices hs
        = totalWealth rates base prices hs - totalCost rates base prices hs
    ∧ (0 < totalCost rates base prices hs →
        totalGainPercent rates base prices hs
          = (totalWealth rates base prices hs - totalCost rates base prices hs)
              / totalCost rates base prices hs * 100)
    ∧ (totalCost rates base prices hs = 0 →
        totalGainPercent rates base prices hs = 0)
    ∧ ((accountIds hs).map (accountMarketValue rates base prices hs)).sum
        = totalWealth rates base prices hs
    ∧ ((accountIds hs).map (accountCostBasis rates base hs)).sum
        = totalCost rates base prices hs := by
  refine ⟨rfl, ?_, ?_, ?_, ?_⟩
  · intro h
    rw [totalGainPercent, if_pos h]
  · intro h
    rw [totalGainPercent, if_neg (by rw [h]; exact lt_irrefl 0)]
  · exact sum_fiberwise Holding.account_id (marketValueOf rates base prices) hs
      (accountIds hs) (List.nodup_dedup _)
      (fun h hh => List.mem_dedup.mpr (List.mem_map_of_mem Holding.account_id hh))
  · exact sum_fiberwise Holding.account_id (costBasisOf rates base) hs
      (accountIds hs) (List.nodup_dedup _)
      (fun h hh => List.mem_dedup.mpr (List.mem_map_of_mem Holding.account_id hh))

/-- Concrete instantiation of `dashboard_summary_totals`: one EUR-account
AAPL holding of 10 shares at average cost 150, priced 200 USD with
`USD→EUR = 0.92`, gives a strictly positive total cost and the stated gain
percentage. -/
theorem dashboard_summary_totals_witness :
    0 < totalCost [⟨"USD", "EUR", 92/100⟩] "EUR"
        (fun _ => some ⟨200, "USD"⟩) [⟨"AAPL", 1, "Stock", "EUR", 10, some 150⟩]
    ∧ totalGainPercent [⟨"USD", "EUR", 92/100⟩] "EUR"
        (fun _ => some ⟨200, "USD"⟩) [⟨"AAPL", 1, "Stock", "EUR", 10, some 150⟩]
      = (totalWealth [⟨"USD", "EUR", 92/100⟩] "EUR"
            (fun _ => some ⟨200, "USD"⟩) [⟨"AAPL", 1, "Stock", "EUR", 10, some 150⟩]
          - totalCost [⟨"USD", "EUR", 92/100⟩] "EUR"
            (fun _ => some ⟨200, "USD"⟩) [⟨"AAPL", 1, "Stock", "EUR", 10, some 150⟩])
          / totalCost [⟨"USD", "EUR", 92/100⟩] "EUR"
            (fun _ => some ⟨200, "USD"⟩) [⟨"AAPL", 1, "Stock", "EUR", 10, some 150⟩] * 100 := by
  have hpos : 0 < totalCost [⟨"USD", "EUR", 92/100⟩] "EUR"
      (fun _ => some ⟨200, "USD"⟩) [⟨"AAPL", 1, "Stock", "EUR", 10, some 150⟩] := by
    norm_num [totalCost, costBasisOf, rateOr1, lookupRate]
  exact ⟨hpos, (dashboard_summary_totals [⟨"USD", "EUR", 92/100⟩] "EUR"
    (fun _ => some ⟨200, "USD"⟩) [⟨"AAPL", 1, "Stock", "EUR", 10, some 150⟩]).2.1 hpos⟩

/-! ## Price oracle and cache (`GET /quote/:symbol`, `POST /quotes`) -/

/-- A `price_cache` row; `updated_at` is a timestamp in seconds. -/
structure CacheEntry where
  symbol : String
  price : ℚ
  currency : String
  name : String
  change_percent : ℚ
  updated_at : Nat
  deriving Repr, DecidableEq

/-- The price cache, keyed by its primary key `symbol`. -/
abbrev Cache := String → Option CacheEntry

/-- The cache row selected by
`WHERE symbol = ? AND updated_at > datetime('now','-5 minutes')`. -/
def freshCached (cache : Cache) (now : Nat) (sym : String) : Option CacheEntry :=
  match cache sym with
  | some e => if now < e.updated_at + 300 then some e else none
  | none => none

/-- The `data` record built from a successful external `yf.quote` call
(after its `|| 0` / `|| 'USD'` defaulting). -/
structure FetchData where
  price : ℚ
  currency : String
  name : String
  change_percent : ℚ
  deriving Repr, DecidableEq

/-- `INSERT OR REPLACE INTO price_cache ...` — replace on primary-key
conflict. -/
def upsertCache (cache : Cache) (e : CacheEntry) : Cache :=
  fun s => if s = e.symbol then some e else cache s

/-- The response of `GET /quote/:symbol`. -/
inductive QuoteResponse
  | cachedFresh (e : CacheEntry)
  | fetched (d : FetchData)
  | cachedStale (e : CacheEntry)
  | notFound
  deriving Repr, DecidableEq

/-- `GET /quote/:symbol` as a function of the cache state, the current time
and the outcome of the external fetch (`none` models a thrown error).
Returns the response and the resulting cache. -/
def getQuote (cache : Cache) (now : Nat) (fetch : Option FetchData)
    (sym : String) : QuoteResponse × Cache :=
  match freshCached cache now sym with
  | some e => (.cachedFresh e, cache)
  | none =>
    match fetch with
    | some q =>
        (.fetched q,
          upsertCache cache ⟨sym, q.price, q.currency, q.name, q.change_percent, now⟩)
    | none =>
      match cache sym with
      | some e => (.cachedStale e, cache)
      | none => (.notFound, cache)

/-- **C3.** The single-quote operation returns a cache entry fresher than 5
minutes without consulting the external fetch at all; otherwise, on fetch
success it upserts the cache entry (replace-on-conflict, other symbols
untouched) and returns the fresh data; on fetch failure it returns any
existing cache entry regardless of age, tagged stale; and when no cache
entry exists it returns the explicit not-found error, never a synthesized
price. -/
theorem quote_cache_policy (cache : Cache) (now : Nat) (sym : String) :
    (∀ e, freshCached cache now sym = some e →
      ∀ fetch fetch' : Option FetchData,
        getQuote cache now fetch sym = (.cachedFresh e, cache)
        ∧ getQuote cache now fetch sym = getQuote cache now fetch' sym)
    ∧ (∀ q : FetchData, freshCached cache now sym = none →
        getQuote cache now (some q) sym =
          (.fetched q, upsertCache cache
            ⟨sym, q.price, q.currency, q.name, q.change_percent, now⟩)
        ∧ upsertCache cache
            ⟨sym, q.price, q.currency, q.name, q.change_percent, now⟩ sym
          = some ⟨sym, q.price, q.currency, q.name, q.change_percent, now⟩
        ∧ ∀ s', s' ≠ sym → upsertCache cache
            ⟨sym, q.price, q.currency, q.name, q.change_percent, now⟩ s' = cache s')
    ∧ (∀ e, freshCached cache now sym = none → cache sym = some e →
        getQuote cache now none sym = (.cachedStale e, cache))
    ∧ (cache sym = none →
        getQuote cache now none sym = (.notFound, cache)) := by
  refine ⟨?_, ?_, ?_, ?_⟩
  · intro e he fetch fetch'
    constructor <;> simp [getQuote, he]
  · intro q hn
    refine ⟨by simp [getQuote, hn], by simp [upsertCache], ?_⟩
    intro s' hs'
    simp [upsertCache, hs']
  · intro e hn hc
    simp [getQuote, hn, hc]
  · intro hc
    have hn : freshCached cache now sym = none := by simp [freshCached, hc]
    simp [getQuote, hn, hc]

/-- Concrete instantiation of `quote_cache_policy`: with a single aged cache
row for AAPL (written at time 0, read at time 10000) and a failing fetch,
the endpoint serves the aged row as its stale fallback. -/
theorem quote_cache_policy_witness :
    getQuote (fun s => if s = "AAPL" then some ⟨"AAPL", 100, "USD", "Apple", 0, 0⟩ else none)
        10000 none "AAPL"
      = (.cachedStale ⟨"AAPL", 100, "USD", "Apple", 0, 0⟩,
          fun s => if s = "AAPL" then some ⟨"AAPL", 100, "USD", "Apple", 0, 0⟩ else none) :=
  (quote_cache_policy
      (fun s => if s = "AAPL" then some ⟨"AAPL", 100, "USD", "Apple", 0, 0⟩ else none)
      10000 "AAPL").2.2.1
    ⟨"AAPL", 100, "USD", "Apple", 0, 0⟩
    (by simp [freshCached]) (by simp)

/-- `sym.toUpperCase()` on the ASCII ticker strings the routes handle. -/
def jsToUpper (s : String) : String := ⟨s.data.map Char.toUpper⟩

/-- One value of the `POST /quotes` response map. -/
inductive BatchEntry
  | cachedFresh (e : CacheEntry)
  | fetched (d : FetchData)
  | cachedStale (e : CacheEntry)
  | fetchError
  deriving Repr, DecidableEq

/-- Per-symbol outcomes of the sequential external fetch loop; `none` models
a thrown `yf.quote` error for that symbol (the route's outer catch, where
the provider itself fails, produces the same per-symbol stale-or-error
entries). -/
abbrev FetchOracle := String → Option FetchData

/-- First loop of `POST /quotes`: serve fresh cache hits immediately,
collect the remaining (uppercased) symbols into `toFetch`. -/
def phase1Step (cache : Cache) (now : Nat)
    (acc : (String → Option BatchEntry) × List String) (sym : String) :
    (String → Option BatchEntry) × List String :=
  let s := jsToUpper sym
  match freshCached cache now s with
  | some e => (fun k => if k = s then some (.cachedFresh e) else acc.1 k, acc.2)
  | none => (acc.1, acc.2 ++ [s])

/-- Second loop of `POST /quotes`: fetch one symbol; on success record the
data and upsert the cache, on failure fall back to any cache row for that
symbol or a per-symbol error entry. -/
def phase2Step (now : Nat) (fetch : FetchOracle)
    (acc : (String → Option BatchEntry) × Cache) (sym : String) :
    (String → Option BatchEntry) × Cache :=
  match fetch sym with
  | some q =>
      (fun k => if k = sym then some (.fetched q) else acc.1 k,
        upsertCache acc.2 ⟨sym, q.price, q.currency, q.name, q.change_percent, now⟩)
  | none =>
    match acc.2 sym with
    | some e => (fun k => if k = sym then some (.cachedStale e) else acc.1 k, acc.2)
    | none => (fun k => if k = sym then some (.fetchError) else acc.1 k, acc.2)

/-- `POST /quotes` over a list of requested symbols. -/
def batchQuotes (cache : Cache) (now : Nat) (fetch : FetchOracle)
    (symbols : List String) : (String → Option BatchEntry) × Cache :=
  let p1 := symbols.foldl (phase1Step cache now) (fun _ => none, [])
  p1.2.foldl (phase2Step now fetch) (p1.1, cache)

/-- The response entry each symbol should get, computed from that symbol's
own cache row and fetch outcome alone. -/
def expectedEntry (cache : Cache) (now : Nat) (fetch : FetchOracle)
    (s : String) : BatchEntry :=
  match freshCached cache now s with
  | some e => .cachedFresh e
  | none =>
    match fetch s with
    | some q => .fetched q
    | none =>
      match cache s with
      | some e => .cachedStale e
      | none => .fetchError

theorem phase1_foldl (cache : Cache) (now : Nat) (symbols : List String)
    (acc : (String → Option BatchEntry) × List String) :
    (symbols.foldl (phase1Step cache now) acc).2
      = acc.2 ++ (symbols.map jsToUpper).filter
          (fun k => freshCached cache now k = none)
    ∧ ∀ k,
      (symbols.foldl (phase1Step cache now) acc).1 k
        = if k ∈ (symbols.map jsToUpper).filter
              (fun k => freshCached cache now k ≠ none)
          then (freshCached cache now k).map .cachedFresh
          else acc.1 k := by
  induction symbols generalizing acc with
  | nil => simp
  | cons s rest ih =>
    rcases ih (phase1Step cache now acc s) with ⟨ih2, ih1⟩
    constructor
    · rw [List.foldl_cons, ih2, List.map_cons, List.filter_cons]
      rcases hf : freshCached cache now (jsToUpper s) with _ | e <;>
        simp [phase1Step, hf]
    · intro k
      rw [List.foldl_cons, ih1 k, List.map_cons, List.filter_cons]
      rcases hf : freshCached cache now (jsToUpper s) with _ | e
      · by_cases hk : k ∈ (rest.map jsToUpper).filter
            (fun k => freshCached cache now k ≠ none) <;>
          simp [phase1Step, hf, hk]
      · by_cases hk : k ∈ (rest.map jsToUpper).filter
            (fun k => freshCached cache now k ≠ none)
        · have hcond : (∃ a ∈ rest, jsToUpper a = k)
              ∧ ¬freshCached cache now k = none := by simpa using hk
          simp [phase1Step, hf, hk, hcond]
        · by_cases hks : k = (jsToUpper s) <;>
            simp [phase1Step, hf, hk, hks]

theorem phase2_foldl (cache : Cache) (now : Nat) (fetch : FetchOracle)
    (toFetch : List String) (res : String → Option BatchEntry) (cacheAcc : Cache)
    (hinv : ∀ k, fetch k = none → cacheAcc k = cache k) :
    ∀ k,
      (toFetch.foldl (phase2Step now fetch) (res, cacheAcc)).1 k
        = if k ∈ toFetch
          then some (match fetch k with
            | some q => .fetched q
            | none =>
              match cache k with
              | some e => .cachedStale e
              | none => .fetchError)
          else res k := by
  induction toFetch generalizing res cacheAcc with
  | nil => simp
  | cons s rest ih =>
    intro k
    rcases hfs : fetch s with _ | q
    · rcases hcs : cacheAcc s with _ | e
      · have hcs' : cache s = none := by rw [← hinv s hfs]; exact hcs
        rw [List.foldl_cons]
        simp only [phase2Step, hfs, hcs]
        rw [ih _ _ hinv k]
        by_cases hk : k ∈ rest
        · simp [hk]
        · by_cases hks : k = s <;> simp [hk, hks, hfs, hcs']
      · have hcs' : cache s = some e := by rw [← hinv s hfs]; exact hcs
        rw [List.foldl_cons]
        simp only [phase2Step, hfs, hcs]
        rw [ih _ _ hinv k]
        by_cases hk : k ∈ rest
        · simp [hk]
        · by_cases hks : k = s <;> simp [hk, hks, hfs, hcs']
    · rw [List.foldl_cons]
      simp only [phase2Step, hfs]
      have hinv' : ∀ k, fetch k = none →
          upsertCache cacheAcc ⟨s, q.price, q.currency, q.name, q.change_percent, now⟩ k
            = cache k := by
        intro k hk
        have hne : k ≠ s := fun hEq => by rw [hEq, hfs] at hk; cases hk
        rw [upsertCache]
        simp only [hne, if_false]
        exact hinv k hk
      rw [ih _ _ hinv' k]
      by_cases hk : k ∈ rest
      · simp [hk]
      · by_cases hks : k = s <;> simp [hk, hks, hfs]

/-- **C4.** The batch-quote operation returns a map with exactly one entry
per requested symbol (keyed by the uppercased symbol, and no entry for
symbols never requested), and each symbol's entry is determined by that
symbol's own cache row and fetch outcome alone — a failed fetch yields that
symbol's stale cache entry or a per-symbol error entry and never disturbs
any other symbol's result. -/
theorem batch_quotes_isolated (cache : Cache) (now : Nat) (fetch : FetchOracle)
    (symbols : List String) :
    (∀ s ∈ symbols,
      (batchQuotes cache now fetch symbols).1 (jsToUpper s)
        = some (expectedEntry cache now fetch (jsToUpper s)))
    ∧ ∀ k, (∀ s ∈ symbols, (jsToUpper s) ≠ k) →
        (batchQuotes cache now fetch symbols).1 k = none := by
  have hp1 := phase1_foldl cache now symbols (fun _ => none, [])
  have hres := phase2_foldl cache now fetch
    ((symbols.map jsToUpper).filter (fun k => freshCached cache now k = none))
    ((symbols.foldl (phase1Step cache now) (fun _ => none, [])).1) cache
    (fun _ _ => rfl)
  constructor
  · intro s hs
    have hk : (jsToUpper s) ∈ symbols.map jsToUpper :=
      List.mem_map_of_mem jsToUpper hs
    simp only [batchQuotes, hp1.1, List.nil_append]
    rw [hres (jsToUpper s)]
    rcases hf : freshCached cache now (jsToUpper s) with _ | e
    · have hmem : (jsToUpper s) ∈ (symbols.map jsToUpper).filter
          (fun k => freshCached cache now k = none) := by
        rw [List.mem_filter]; exact ⟨hk, by simp [hf]⟩
      rw [if_pos hmem]
      simp [expectedEntry, hf]
    · have hmem : (jsToUpper s) ∉ (symbols.map jsToUpper).filter
          (fun k => freshCached cache now k = none) := by
        rw [List.mem_filter]; rintro ⟨-, h⟩; simp [hf] at h
      rw [if_neg hmem, hp1.2 (jsToUpper s),
        if_pos (by rw [List.mem_filter]; exact ⟨hk, by simp [hf]⟩), hf]
      simp [expectedEntry, hf]
  · intro k hk
    have hnm : k ∉ symbols.map jsToUpper := by
      rw [List.mem_map]
      rintro ⟨s, hs, rfl⟩
      exact hk s hs rfl
    simp only [batchQuotes, hp1.1, List.nil_append]
    rw [hres k, if_neg (fun hmem => hnm (List.mem_filter.mp hmem).1),
      hp1.2 k, if_neg (fun hmem => hnm (List.mem_filter.mp hmem).1)]

/-- Concrete instantiation of `batch_quotes_isolated`: of two requested
symbols with an empty cache, one fetch succeeds and one throws — the failed
symbol gets its own error entry while the other still gets its quote, and an
unrequested symbol gets no entry. -/
theorem batch_quotes_isolated_witness :
    (batchQuotes (fun _ => none) 0
        (fun s => if s = "AAPL" then some ⟨200, "USD", "Apple", 0⟩ else none)
        ["aapl", "msft"]).1 "AAPL" = some (.fetched ⟨200, "USD", "Apple", 0⟩)
    ∧ (batchQuotes (fun _ => none) 0
        (fun s => if s = "AAPL" then some ⟨200, "USD", "Apple", 0⟩ else none)
        ["aapl", "msft"]).1 "MSFT" = some .fetchError
    ∧ (batchQuotes (fun _ => none) 0
        (fun s => if s = "AAPL" then some ⟨200, "USD", "Apple", 0⟩ else none)
        ["aapl", "msft"]).1 "GOOG" = none := by
  have h := batch_quotes_isolated (fun _ => none) 0
    (fun s => if s = "AAPL" then some ⟨200, "USD", "Apple", 0⟩ else none)
    ["aapl", "msft"]
  refine ⟨?_, ?_, ?_⟩
  · have := h.1 "aapl" (by simp)
    rw [show jsToUpper "aapl" = "AAPL" from rfl] at this
    rw [this]
    simp [expectedEntry, freshCached]
  · have := h.1 "msft" (by simp)
    rw [show jsToUpper "msft" = "MSFT" from rfl] at this
    rw [this]
    simp [expectedEntry, freshCached]
  · refine h.2 "GOOG" ?_
    intro s hs
    rcases List.mem_cons.mp hs with rfl | hs'
    · decide
    · rcases List.mem_cons.mp hs' with rfl | h0
      · decide
      · cases h0

/-! ## Currency conversion (`GET /convert` in `src/routes/currencies.ts`) -/

/-- The response of `GET /convert`: `{ result, rate }` on success, or the
404 `No rate found for ... to ...` error. -/
inductive ConvertResponse
  | ok (result rate : ℚ)
  | noRateError
  deriving Repr, DecidableEq

/-- `SELECT rate FROM currency_rates WHERE from_currency = ? AND
to_currency = ?` via `.get`: the first matching row (the table carries a
`UNIQUE(from_currency, to_currency)` constraint). -/
def firstRateLookup : List RateRow → String → String → Option ℚ
  | [], _, _ => none
  | r :: rs, f, t =>
    if r.from_currency = f ∧ r.to_currency = t then some r.rate
    else firstRateLookup rs f t

/-- The `/convert` endpoint body: identical uppercased currencies return the
amount with rate 1 before any lookup; otherwise the directed rate is looked
up and its absence is a 404 error. -/
def convertEndpoint (rates : List RateRow) (f t : String) (amount : ℚ) :
    ConvertResponse :=
  if jsToUpper f = jsToUpper t then .ok amount 1
  else
    match firstRateLookup rates (jsToUpper f) (jsToUpper t) with
    | some r => .ok (amount * r) r
    | none => .noRateError

/-- **C7, counterexample.** With an empty rate table, converting 5 from USD
to EUR does not return the amount unchanged with multiplier 1: the endpoint
returns the not-found error. -/
theorem convert_missing_rate_not_identity :
    convertEndpoint [] "USD" "EUR" 5 = .noRateError
    ∧ convertEndpoint [] "USD" "EUR" 5 ≠ .ok 5 1 := by
  constructor
  · rfl
  · intro h
    simp [convertEndpoint, jsToUpper, firstRateLookup] at h

/-- **C7, amended.** `convert(x, A, A)` returns `x` with rate 1 and performs
no rate lookup (the result does not depend on the rate table at all); a
missing directed rate at the `/convert` endpoint yields the explicit 404
not-found error, not a multiplier-1 result; the multiplier-1 missing-rate
fallback lives in the dashboard-summary and snapshot conversions, whose
`rates[key] || 1` multiplier is 1 when the directed pair is absent. -/
theorem convert_endpoint_behavior (rates rates' : List RateRow)
    (f t : String) (amount : ℚ) :
    (jsToUpper f = jsToUpper t →
      convertEndpoint rates f t amount = .ok amount 1
      ∧ convertEndpoint rates f t amount = convertEndpoint rates' f t amount)
    ∧ (jsToUpper f ≠ jsToUpper t →
        firstRateLookup rates (jsToUpper f) (jsToUpper t) = none →
        convertEndpoint rates f t amount = .noRateError)
    ∧ (lookupRate rates f t = none → rateOr1 rates f t = 1) := by
  refine ⟨?_, ?_, ?_⟩
  · intro h
    exact ⟨by simp [convertEndpoint, h], by simp [convertEndpoint, h]⟩
  · intro hne hnone
    simp [convertEndpoint, hne, hnone]
  · intro h
    simp [rateOr1, h]

/-- Concrete instantiation of `convert_endpoint_behavior`: same-currency
conversion ignores the rate table, and a missing EUR→GBP rate makes the
dashboard conversion multiplier 1. -/
theorem convert_endpoint_behavior_witness :
    convertEndpoint [⟨"USD", "EUR", 92/100⟩] "eur" "EUR" 7 = .ok 7 1
    ∧ rateOr1 [⟨"USD", "EUR", 92/100⟩] "EUR" "GBP" = 1 := by
  refine ⟨((convert_endpoint_behavior [⟨"USD", "EUR", 92/100⟩] [] "eur" "EUR" 7).1
    (by rfl)).1, ?_⟩
  exact (convert_endpoint_behavior [⟨"USD", "EUR", 92/100⟩] [] "EUR" "GBP" 7).2.2
    (by simp [lookupRate])

/-! ## Dashboard price fallback (`GET /dashboard/summary` price loop) -/

/-- Price resolution of the dashboard summary for one symbol: fresh cache
row, else fetch (upserting on success), else any cache row, else the
placeholder `{ symbol, price: 0, currency: 'USD', name: symbol,
change_percent: 0, updated_at: '' }`. -/
def dashboardPrice (cache : Cache) (now : Nat) (fetch : FetchOracle)
    (sym : String) : CacheEntry :=
  match freshCached cache now sym with
  | some e => e
  | none =>
    match fetch sym with
    | some q => ⟨sym, q.price, q.currency, q.name, q.change_percent, now⟩
    | none =>
      match cache sym with
      | some e => e
      | none => ⟨sym, 0, "USD", sym, 0, 0⟩

/-- The `prices` map the summation loop reads. -/
def dashboardPrices (cache : Cache) (now : Nat) (fetch : FetchOracle) :
    String → Option PriceData :=
  fun s =>
    some ⟨(dashboardPrice cache now fetch s).price,
      (dashboardPrice cache now fetch s).currency⟩

/-- **C10.** When a holding's symbol has no price-cache row and its external
fetch fails, the dashboard substitutes the zero-price USD placeholder: the
holding contributes zero market value but its full converted cost basis to
the totals, and the summary is still produced (the totals over the remaining
holdings are undisturbed). -/
theorem dashboard_missing_price_fallback (cache : Cache) (now : Nat)
    (fetch : FetchOracle) (rates : List RateRow) (base : String)
    (h : Holding) (hs : List Holding)
    (hc : cache h.symbol = none) (hf : fetch h.symbol = none) :
    dashboardPrice cache now fetch h.symbol = ⟨h.symbol, 0, "USD", h.symbol, 0, 0⟩
    ∧ marketValueOf rates base (dashboardPrices cache now fetch) h = 0
    ∧ totalWealth rates base (dashboardPrices cache now fetch) (h :: hs)
        = totalWealth rates base (dashboardPrices cache now fetch) hs
    ∧ totalCost rates base (dashboardPrices cache now fetch) (h :: hs)
        = costBasisOf rates base h
            + totalCost rates base (dashboardPrices cache now fetch) hs := by
  have hfr : freshCached cache now h.symbol = none := by simp [freshCached, hc]
  have hdp : dashboardPrice cache now fetch h.symbol
      = ⟨h.symbol, 0, "USD", h.symbol, 0, 0⟩ := by
    simp [dashboardPrice, hfr, hf, hc]
  have hmv : marketValueOf rates base (dashboardPrices cache now fetch) h = 0 := by
    rw [marketValueOf]
    simp only [priceFor, dashboardPrices, hdp, Option.getD_some]
    by_cases hcur : jsOrStr "USD" "USD" ≠ base <;> simp [hcur]
  refine ⟨hdp, hmv, ?_, ?_⟩
  · rw [totalWealth, List.map_cons, List.sum_cons, hmv, zero_add, totalWealth]
  · rw [totalCost, List.map_cons, List.sum_cons, totalCost]

/-- Concrete instantiation of `dashboard_missing_price_fallback`: an empty
cache and failing fetch for a 10-share AAPL holding with average cost 150 in
a EUR account, base EUR — market value 0, cost basis 1500. -/
theorem dashboard_missing_price_fallback_witness :
    marketValueOf [] "EUR" (dashboardPrices (fun _ => none) 0 (fun _ => none))
      ⟨"AAPL", 1, "Stock", "EUR", 10, some 150⟩ = 0
    ∧ totalCost [] "EUR" (dashboardPrices (fun _ => none) 0 (fun _ => none))
        [⟨"AAPL", 1, "Stock", "EUR", 10, some 150⟩]
      = costBasisOf [] "EUR" ⟨"AAPL", 1, "Stock", "EUR", 10, some 150⟩
          + totalCost [] "EUR" (dashboardPrices (fun _ => none) 0 (fun _ => none)) [] := by
  have h := dashboard_missing_price_fallback (fun _ => none) 0 (fun _ => none)
    [] "EUR" ⟨"AAPL", 1, "Stock", "EUR", 10, some 150⟩ [] rfl rfl
  exact ⟨h.2.1, h.2.2.2⟩

/-! ## Portfolio history reconstruction (`GET /portfolio/history`) -/

/-- The insertion-ordered JS record `runningHoldings`: symbol → quantity. -/
abbrev RunningHoldings := List (String × ℚ)

/-- `runningHoldings[sym]`, reading a missing key as 0. -/
def getQty : RunningHoldings → String → ℚ
  | [], _ => 0
  | (k, v) :: t, s => if k = s then v else getQty t s

/-- `if (!runningHoldings[tx.symbol]) runningHoldings[tx.symbol] = 0;` —
a missing key is appended with value 0, an existing key is left in place. -/
def ensureKey : RunningHoldings → String → RunningHoldings
  | [], s => [(s, 0)]
  | (k, v) :: t, s => if k = s then (k, v) :: t else (k, v) :: ensureKey t s

/-- In-place update of an existing key (appending if absent, which cannot
happen after `ensureKey`). -/
def updateQty : RunningHoldings → String → (ℚ → ℚ) → RunningHoldings
  | [], s, f => [(s, f 0)]
  | (k, v) :: t, s, f => if k = s then (k, f v) :: t else (k, v) :: updateQty t s f

/-- `['buy','transfer_in','dividend'].includes(tx.type)` — the adding branch
of the history replay. Note that `dividend` IS in this list, unlike the
dashboard aggregator's acquiring class. -/
def isReplayAdding : TxType → Bool
  | .buy => true
  | .transfer_in => true
  | .dividend => true
  | _ => false

/-- One transaction applied to the running holdings (the body of the
`while (txIndex < transactions.length && ...)` loop). -/
def applyTxH (h : RunningHoldings) (t : Tx) : RunningHoldings :=
  let h0 := ensureKey h t.symbol
  if isReplayAdding t.type then updateQty h0 t.symbol (fun v => v + t.quantity)
  else if isDisposing t.type then updateQty h0 t.symbol (fun v => v - t.quantity)
  else h0

/-- One symbol's entry of `priceHistories`: a date-keyed close map when the
history fetch succeeded, or `{ fallback: cachedPrice }` when it failed
(`fallback = none` also covers a symbol absent from `priceHistories`,
which the valuation loop reads as the empty object). -/
structure PriceSeries where
  points : List (Nat × ℚ)
  fallback : Option ℚ
  deriving Repr

/-- `prices[dateStr]`: the close recorded exactly at the date, if any
(object keys are unique). -/
def lookupPoint : List (Nat × ℚ) → Nat → Option ℚ
  | [], _ => none
  | (d, p) :: t, d0 => if d = d0 then some p else lookupPoint t d0

/-- The entry with the greatest date in a list of points (ties keep the
later occurrence; object keys are unique so ties cannot arise). -/
def maxKeyEntry : List (Nat × ℚ) → Option (Nat × ℚ)
  | [] => none
  | q :: t =>
    match maxKeyEntry t with
    | none => some q
    | some m => if q.1 > m.1 then some q else some m

/-- The code's `priceDates.filter(d <= dateStr).sort()` followed by taking
the last element: the point with the greatest date not exceeding `d`. -/
def latestAtOrBefore (pts : List (Nat × ℚ)) (d : Nat) : Option (Nat × ℚ) :=
  maxKeyEntry (pts.filter fun q => q.1 ≤ d)

/-- Price resolution at one date: the exact close if present, else the
closest earlier close, else `prices.fallback || 0`. -/
def resolvePrice (s : PriceSeries) (d : Nat) : ℚ :=
  match lookupPoint s.points d with
  | some p => p
  | none =>
    match latestAtOrBefore s.points d with
    | some q => q.2
    | none => s.fallback.getD 0

/-- `totalValue`: `qty * price` summed over running-holdings entries, with
`if (qty <= 0.00000001) continue;`. -/
def valueAt (ph : String → PriceSeries) (h : RunningHoldings) (d : Nat) : ℚ :=
  (h.map fun kv => if kv.2 ≤ eps then 0 else kv.2 * resolvePrice (ph kv.1) d).sum

/-- The per-date cost recomputation: `quantity * price` summed over
buy/transfer_in transactions dated at or before `d`. -/
def costUpTo (txs : List Tx) (d : Nat) : ℚ :=
  ((txs.filter fun t => t.date ≤ d).map
    fun t => if isAcquiring t.type then t.quantity * t.price else 0).sum

/-- `Math.round(x * 100) / 100`. -/
def round2 (q : ℚ) : ℚ := (⌊q * 100 + 1 / 2⌋ : ℚ) / 100

/-- One emitted `{date, value, cost, gain}` point. -/
structure HistoryPoint where
  date : Nat
  value : ℚ
  cost : ℚ
  gain : ℚ
  deriving Repr, DecidableEq

/-- The replay loop over the sorted emitted dates: advance the transaction
pointer through every transaction dated ≤ the current date (`takeWhile` on
the pending suffix is exactly the `while` loop, which stops at the first
transaction dated later), then value the holdings and recompute the cost. -/
def replayLoop (allTxs : List Tx) (ph : String → PriceSeries) :
    List Tx → RunningHoldings → List Nat → List HistoryPoint
  | _, _, [] => []
  | pending, h, d :: ds =>
    let h' := (pending.takeWhile fun t => t.date ≤ d).foldl applyTxH h
    let v := valueAt ph h' d
    let c := costUpTo allTxs d
    ⟨d, round2 v, round2 c, round2 (v - c)⟩
      :: replayLoop allTxs ph (pending.dropWhile fun t => t.date ≤ d) h' ds

/-- `GET /portfolio/history`: replay the date-ascending transaction list
against the union of observed price dates. -/
def portfolioHistory (txs : List Tx) (ph : String → PriceSeries)
    (dates : List Nat) : List HistoryPoint :=
  replayLoop txs ph txs [] dates

/-- **C6 (evaluating the code at the failing input).** A single dividend
transaction of quantity 12.5 leaves the Holdings Aggregator quantity at 0,
but the portfolio-history replay adds it to the running holdings, which end
at 12.5 ≠ 0 — dividends do not leave the replay's quantities unchanged, and
the reconstruction's final running quantities differ from the aggregator's. -/
theorem dividend_replay_divergence :
    holdingQuantity [⟨1, "AAPL", .dividend, 125 / 10, 1, 0, 1, ""⟩] = 0
    ∧ getQty (applyTxH [] ⟨1, "AAPL", .dividend, 125 / 10, 1, 0, 1, ""⟩) "AAPL"
        = 125 / 10
    ∧ getQty (applyTxH [] ⟨1, "AAPL", .dividend, 125 / 10, 1, 0, 1, ""⟩) "AAPL"
        ≠ holdingQuantity [⟨1, "AAPL", .dividend, 125 / 10, 1, 0, 1, ""⟩] := by
  refine ⟨?_, ?_, ?_⟩
  · norm_num [holdingQuantity, aggregate, aggStep, isAcquiring, isDisposing]
  · norm_num [applyTxH, isReplayAdding, isDisposing, ensureKey, updateQty, getQty]
  · norm_num [holdingQuantity, aggregate, aggStep, isAcquiring, isDisposing,
      applyTxH, isReplayAdding, ensureKey, updateQty, getQty]

theorem takeWhile_split {α : Type} (p p' : α → Bool)
    (hmono : ∀ x, p x = true → p' x = true) (l : List α) :
    l.takeWhile p' = l.takeWhile p ++ (l.dropWhile p).takeWhile p' := by
  induction l with
  | nil => rfl
  | cons x t ih =>
    by_cases hx : p x
    · simp [List.takeWhile_cons, List.dropWhile_cons, hx, hmono x hx, ih]
    · simp [List.takeWhile_cons, List.dropWhile_cons, hx]

theorem takeWhile_date_eq_filter (d : Nat) (txs : List Tx)
    (hs : txs.Sorted (fun a b => a.date ≤ b.date)) :
    txs.takeWhile (fun t => t.date ≤ d) = txs.filter (fun t => t.date ≤ d) := by
  induction txs with
  | nil => rfl
  | cons x t ih =>
    rcases List.sorted_cons.mp hs with ⟨hx, ht⟩
    by_cases hxd : x.date ≤ d
    · simp [List.takeWhile_cons, List.filter_cons, hxd, ih ht]
    · have hnone : ∀ y ∈ t, ¬ y.date ≤ d :=
        fun y hy hyd => hxd (le_trans (hx y hy) hyd)
      simp only [List.takeWhile_cons, List.filter_cons]
      rw [if_neg (by simpa using hxd), if_neg (by simpa using hxd)]
      exact (List.filter_eq_nil_iff.mpr fun y hy => by simpa using hnone y hy).symm

theorem lookupPoint_filter_le (pts : List (Nat × ℚ)) (d : Nat) :
    lookupPoint (pts.filter fun q => q.1 ≤ d) d = lookupPoint pts d := by
  induction pts with
  | nil => rfl
  | cons q t ih =>
    obtain ⟨qd, qp⟩ := q
    by_cases hq : qd ≤ d
    · by_cases heq : qd = d <;> simp [List.filter_cons, lookupPoint, hq, heq, ih]
    · have hne : qd ≠ d := fun h => hq (le_of_eq h)
      simp [List.filter_cons, lookupPoint, hq, hne, ih]

theorem lookupPoint_mem :
    ∀ (l : List (Nat × ℚ)) (d : Nat) (p : ℚ), lookupPoint l d = some p → (d, p) ∈ l := by
  intro l
  induction l with
  | nil => intro d p h; cases h
  | cons q t ih =>
    intro d p h
    obtain ⟨qd, qp⟩ := q
    by_cases heq : qd = d
    · subst heq
      rw [lookupPoint, if_pos rfl] at h
      cases h
      exact List.mem_cons_self _ _
    · rw [lookupPoint, if_neg heq] at h
      exact List.mem_cons_of_mem _ (ih d p h)

theorem maxKeyEntry_mem :
    ∀ (l : List (Nat × ℚ)) (m : Nat × ℚ), maxKeyEntry l = some m → m ∈ l := by
  intro l
  induction l with
  | nil => intro m h; cases h
  | cons q t ih =>
    intro m h
    rw [maxKeyEntry] at h
    rcases ht : maxKeyEntry t with _ | m' <;> simp only [ht] at h
    · cases h; exact List.mem_cons_self _ _
    · by_cases hcmp : q.1 > m'.1
      · rw [if_pos hcmp] at h; cases h; exact List.mem_cons_self _ _
      · rw [if_neg hcmp] at h; cases h; exact List.mem_cons_of_mem _ (ih _ ht)

theorem maxKeyEntry_eq_none :
    ∀ l : List (Nat × ℚ), maxKeyEntry l = none → l = [] := by
  intro l h
  cases l with
  | nil => rfl
  | cons q t =>
    rw [maxKeyEntry] at h
    rcases ht : maxKeyEntry t with _ | m' <;> simp only [ht] at h
    · cases h
    · by_cases hcmp : q.1 > m'.1
      · rw [if_pos hcmp] at h; cases h
      · rw [if_neg hcmp] at h; cases h

theorem maxKeyEntry_ub :
    ∀ (l : List (Nat × ℚ)) (m : Nat × ℚ), maxKeyEntry l = some m →
      ∀ x ∈ l, x.1 ≤ m.1 := by
  intro l
  induction l with
  | nil => intro m h; cases h
  | cons q t ih =>
    intro m h x hx
    rw [maxKeyEntry] at h
    rcases ht : maxKeyEntry t with _ | m' <;> simp only [ht] at h
    · cases h
      rcases List.mem_cons.mp hx with rfl | hx'
      · exact le_refl _
      · cases maxKeyEntry_eq_none t ht ▸ hx'
    · rcases List.mem_cons.mp hx with rfl | hx'
      · by_cases hcmp : x.1 > m'.1
        · rw [if_pos hcmp] at h; cases h; exact le_refl _
        · rw [if_neg hcmp] at h; cases h
          exact le_of_not_lt hcmp
      · have hx'' := ih m' ht x hx'
        by_cases hcmp : q.1 > m'.1
        · rw [if_pos hcmp] at h; cases h; exact le_of_lt (lt_of_le_of_lt hx'' hcmp)
        · rw [if_neg hcmp] at h; cases h; exact hx''

theorem maxKeyEntry_of_ne_nil :
    ∀ l : List (Nat × ℚ), l ≠ [] → ∃ m, maxKeyEntry l = some m := by
  intro l
  induction l with
  | nil => intro h; exact absurd rfl h
  | cons q t ih =>
    intro _
    rw [maxKeyEntry]
    rcases ht : maxKeyEntry t with _ | m' <;> simp only [ht]
    · exact ⟨q, rfl⟩
    · by_cases hcmp : q.1 > m'.1
      · exact ⟨q, by rw [if_pos hcmp]⟩
      · exact ⟨m', by rw [if_neg hcmp]⟩

theorem key_inj (l : List (Nat × ℚ)) (hnd : (l.map Prod.fst).Nodup)
    (a b : Nat × ℚ) (ha : a ∈ l) (hb : b ∈ l) (hk : a.1 = b.1) : a = b := by
  induction l with
  | nil => cases ha
  | cons x t ih =>
    rw [List.map_cons, List.nodup_cons] at hnd
    rcases List.mem_cons.mp ha with rfl | ha' <;>
      rcases List.mem_cons.mp hb with rfl | hb'
    · rfl
    · exact absurd (hk ▸ List.mem_map_of_mem Prod.fst hb') hnd.1
    · exact absurd (hk ▸ List.mem_map_of_mem Prod.fst ha') hnd.1
    · exact ih hnd.2 ha' hb'

theorem resolvePrice_filter_le (pts : List (Nat × ℚ)) (fb : Option ℚ) (d : Nat) :
    resolvePrice ⟨pts.filter (fun q => q.1 ≤ d), fb⟩ d = resolvePrice ⟨pts, fb⟩ d := by
  have hlat : latestAtOrBefore (pts.filter fun q => q.1 ≤ d) d
      = latestAtOrBefore pts d := by
    rw [latestAtOrBefore, latestAtOrBefore, List.filter_filter]
    simp only [Bool.and_self]
  rw [resolvePrice, resolvePrice]
  simp only [lookupPoint_filter_le, hlat]

theorem resolvePrice_latest (s : PriceSeries) (d : Nat) (q : Nat × ℚ)
    (hnd : (s.points.map Prod.fst).Nodup) (hq : q ∈ s.points) (hqd : q.1 ≤ d)
    (hmax : ∀ r ∈ s.points, r.1 ≤ d → r.1 ≤ q.1) :
    resolvePrice s d = q.2 := by
  rcases hlp : lookupPoint s.points d with _ | p
  · have hqf : q ∈ s.points.filter fun r => r.1 ≤ d :=
      List.mem_filter.mpr ⟨hq, by simpa using hqd⟩
    obtain ⟨m, hm⟩ := maxKeyEntry_of_ne_nil _ (List.ne_nil_of_mem hqf)
    have hmf := maxKeyEntry_mem _ m hm
    have hmp : m ∈ s.points := (List.mem_filter.mp hmf).1
    have hmd : m.1 ≤ d := by simpa using (List.mem_filter.mp hmf).2
    have h1 : m.1 ≤ q.1 := hmax m hmp hmd
    have h2 : q.1 ≤ m.1 := maxKeyEntry_ub _ m hm q hqf
    have : m = q := key_inj s.points hnd m q hmp hq (le_antisymm h1 h2)
    rw [resolvePrice, hlp, latestAtOrBefore, hm, this]
  · have hdp : (d, p) ∈ s.points := lookupPoint_mem s.points d p hlp
    have h1 : d ≤ q.1 := hmax (d, p) hdp (le_refl d)
    have hkey : q.1 = (d, p).1 := le_antisymm hqd h1
    have : q = (d, p) := key_inj s.points hnd q (d, p) hq hdp hkey
    rw [resolvePrice, hlp, this]

theorem replayLoop_spec (allTxs : List Tx) (ph : String → PriceSeries)
    (txs : List Tx) (dates : List Nat) :
    ∀ done pending : List Tx, dates.Sorted (· ≤ ·) →
      txs = done ++ pending →
      (∀ d ∈ dates, txs.takeWhile (fun t => t.date ≤ d)
          = done ++ pending.takeWhile (fun t => t.date ≤ d)) →
      replayLoop allTxs ph pending (done.foldl applyTxH []) dates
        = dates.map (fun d =>
            ⟨d, round2 (valueAt ph
                  ((txs.takeWhile fun t => t.date ≤ d).foldl applyTxH []) d),
              round2 (costUpTo allTxs d),
              round2 (valueAt ph
                  ((txs.takeWhile fun t => t.date ≤ d).foldl applyTxH []) d
                - costUpTo allTxs d)⟩) := by
  induction dates with
  | nil => intro done pending _ _ _; rfl
  | cons d ds ih =>
    intro done pending hsorted hsplit hinv
    rcases List.sorted_cons.mp hsorted with ⟨hd, hds⟩
    have hinvd := hinv d (List.mem_cons_self d ds)
    have hfold : (pending.takeWhile fun t => t.date ≤ d).foldl applyTxH
        (done.foldl applyTxH [])
        = (txs.takeWhile fun t => t.date ≤ d).foldl applyTxH [] := by
      rw [hinvd, List.foldl_append]
    have hsplit' : txs = (done ++ pending.takeWhile fun t => t.date ≤ d)
        ++ pending.dropWhile fun t => t.date ≤ d := by
      rw [List.append_assoc, List.takeWhile_append_dropWhile]
      exact hsplit
    have hinv' : ∀ d' ∈ ds, txs.takeWhile (fun t => t.date ≤ d')
        = (done ++ pending.takeWhile fun t => t.date ≤ d)
          ++ (pending.dropWhile fun t => t.date ≤ d).takeWhile
              (fun t => t.date ≤ d') := by
      intro d' hd'
      rw [hinv d' (List.mem_cons_of_mem d hd'), List.append_assoc,
        ← takeWhile_split (fun t => t.date ≤ d) (fun t => t.date ≤ d')
          (fun t ht => by
            simp only [decide_eq_true_eq] at ht ⊢
            exact le_trans ht (hd d' hd')) pending]
    have hrec := ih (done ++ pending.takeWhile fun t => t.date ≤ d)
      (pending.dropWhile fun t => t.date ≤ d) hds hsplit' hinv'
    rw [List.foldl_append] at hrec
    simp only [replayLoop, List.map_cons]
    rw [hrec, hfold]

/-- **C5.** With transactions sorted ascending by date and emitted dates
ascending: (1) the point emitted at each date `d` values the running
holdings obtained by applying, exactly once each, precisely the
transactions dated ≤ `d` (the spec-side filter fold), with `value`, `cost`
and `gain` each rounded to 2 decimal places; (2) price resolution at a date
is unchanged when every series entry dated later than `d` is removed (it
never reads a later date); and (3) whenever a series has entries dated
≤ `d`, the resolved price is the close at the greatest such date. -/
theorem portfolio_history_replay (txs : List Tx) (ph : String → PriceSeries)
    (dates : List Nat)
    (htxs : txs.Sorted (fun a b => a.date ≤ b.date))
    (hdates : dates.Sorted (· ≤ ·)) :
    portfolioHistory txs ph dates
      = dates.map (fun d =>
          ⟨d, round2 (valueAt ph
                ((txs.filter fun t => t.date ≤ d).foldl applyTxH []) d),
            round2 (costUpTo txs d),
            round2 (valueAt ph
                ((txs.filter fun t => t.date ≤ d).foldl applyTxH []) d
              - costUpTo txs d)⟩)
    ∧ (∀ (pts : List (Nat × ℚ)) (fb : Option ℚ) (d : Nat),
        resolvePrice ⟨pts.filter (fun q => q.1 ≤ d), fb⟩ d
          = resolvePrice ⟨pts, fb⟩ d)
    ∧ (∀ (s : PriceSeries) (d : Nat) (q : Nat × ℚ),
        (s.points.map Prod.fst).Nodup → q ∈ s.points → q.1 ≤ d →
        (∀ r ∈ s.points, r.1 ≤ d → r.1 ≤ q.1) →
        resolvePrice s d = q.2) := by
  refine ⟨?_, resolvePrice_filter_le, resolvePrice_latest⟩
  have h := replayLoop_spec txs ph txs dates [] txs hdates rfl
    (fun d _ => rfl)
  rw [portfolioHistory]
  simp only [List.foldl_nil] at h
  rw [h]
  exact List.map_congr_left fun d _ => by
    rw [takeWhile_date_eq_filter d txs htxs]

/-- Concrete instantiation of `portfolio_history_replay`: one buy of 10
AAPL at 100 on day 1, prices 100 then 110 on days 1 and 2 — the series
values 1000 then 1100 against a constant cost 1000. -/
theorem portfolio_history_replay_witness :
    portfolioHistory [⟨1, "AAPL", .buy, 10, 100, 0, 1, ""⟩]
        (fun _ => ⟨[(1, 100), (2, 110)], none⟩) [1, 2]
      = [⟨1, 1000, 1000, 0⟩, ⟨2, 1100, 1000, 100⟩] := by
  have h := (portfolio_history_replay [⟨1, "AAPL", .buy, 10, 100, 0, 1, ""⟩]
    (fun _ => ⟨[(1, 100), (2, 110)], none⟩) [1, 2]
    (List.sorted_singleton _) (by decide)).1
  rw [h]
  norm_num [valueAt, costUpTo, resolvePrice, lookupPoint, latestAtOrBefore,
    maxKeyEntry, applyTxH, isReplayAdding, isDisposing, ensureKey, updateQty,
    isAcquiring, round2, eps, List.filter_cons]

/-! ## Daily wealth snapshot (`POST /daily-wealth`) -/

/-- The price map built by the snapshot route: cache rows only, of any age;
symbols without a cache row are simply absent from the map. -/
def snapshotPrices (cache : Cache) : String → Option PriceData :=
  fun s => (cache s).map fun e => ⟨e.price, e.currency⟩

/-- A `daily_wealth` row (without the serialized `details` payload). -/
structure DailyWealthRow where
  total_wealth : ℚ
  total_cost : ℚ
  base_currency : String
  deriving Repr, DecidableEq

/-- `INSERT OR REPLACE INTO daily_wealth ...` with `date` as primary key:
any conflicting row is removed and the new row inserted. -/
def upsertDailyWealth (table : List (Nat × DailyWealthRow)) (d : Nat)
    (r : DailyWealthRow) : List (Nat × DailyWealthRow) :=
  (table.filter fun row => row.1 ≠ d) ++ [(d, r)]

/-- The snapshot endpoint: compute the totals over the holdings with the
cache-only price map and upsert them under today's date. -/
def postDailyWealth (cache : Cache) (rates : List RateRow) (base : String)
    (hs : List Holding) (table : List (Nat × DailyWealthRow)) (today : Nat) :
    List (Nat × DailyWealthRow) :=
  upsertDailyWealth table today
    ⟨totalWealth rates base (snapshotPrices cache) hs,
      totalCost rates base (snapshotPrices cache) hs, base⟩

/-- **C8, counterexample.** On a state whose only cache row for AAPL is
aged (written at time 0, read at 10000) with price 100, while the external
fetch succeeds at price 200: the dashboard summary computes total wealth 200
but the snapshot, which reads prices from the cache only, computes 100 —
the snapshot does not always equal the instantaneous dashboard computation
on the same state. -/
theorem daily_wealth_not_dashboard :
    totalWealth [] "USD"
        (dashboardPrices
          (fun s => if s = "AAPL" then some ⟨"AAPL", 100, "USD", "Apple", 0, 0⟩ else none)
          10000 (fun _ => some ⟨200, "USD", "Apple", 0⟩))
        [⟨"AAPL", 1, "Stock", "USD", 1, some 100⟩] = 200
    ∧ totalWealth [] "USD"
        (snapshotPrices
          (fun s => if s = "AAPL" then some ⟨"AAPL", 100, "USD", "Apple", 0, 0⟩ else none))
        [⟨"AAPL", 1, "Stock", "USD", 1, some 100⟩] = 100
    ∧ totalWealth [] "USD"
        (dashboardPrices
          (fun s => if s = "AAPL" then some ⟨"AAPL", 100, "USD", "Apple", 0, 0⟩ else none)
          10000 (fun _ => some ⟨200, "USD", "Apple", 0⟩))
        [⟨"AAPL", 1, "Stock", "USD", 1, some 100⟩]
      ≠ totalWealth [] "USD"
        (snapshotPrices
          (fun s => if s = "AAPL" then some ⟨"AAPL", 100, "USD", "Apple", 0, 0⟩ else none))
        [⟨"AAPL", 1, "Stock", "USD", 1, some 100⟩] := by
  refine ⟨?_, ?_, ?_⟩ <;>
    norm_num [totalWealth, marketValueOf, priceFor, dashboardPrices, dashboardPrice,
      snapshotPrices, freshCached, jsOrStr, rateOr1, lookupRate]

theorem marketValueOf_congr (rates : List RateRow) (base : String)
    (p1 p2 : String → Option PriceData) (h : Holding)
    (hp : p1 h.symbol = p2 h.symbol) :
    marketValueOf rates base p1 h = marketValueOf rates base p2 h := by
  rw [marketValueOf, marketValueOf, priceFor, priceFor, hp]

/-- **C8, amended.** The snapshot computes `total_wealth`/`total_cost` with
the same per-holding aggregation as the dashboard summary but resolves
prices from the price cache alone (any age; missing rows are read as price
0 USD): the two agree whenever every held symbol has a cache row fresher
than 5 minutes (and on cost always); and the result is upserted keyed by
today's date, so a repeated same-day snapshot overwrites the single row for
that date instead of accumulating a second one. -/
theorem daily_wealth_snapshot_behavior (cache : Cache) (now : Nat)
    (fetch : FetchOracle) (rates : List RateRow) (base : String)
    (hs : List Holding) (table : List (Nat × DailyWealthRow)) (today : Nat)
    (r r' : DailyWealthRow) :
    ((∀ h ∈ hs, ∃ e, cache h.symbol = some e ∧ now < e.updated_at + 300) →
      totalWealth rates base (dashboardPrices cache now fetch) hs
        = totalWealth rates base (snapshotPrices cache) hs)
    ∧ totalCost rates base (dashboardPrices cache now fetch) hs
        = totalCost rates base (snapshotPrices cache) hs
    ∧ postDailyWealth cache rates base hs table today
        = upsertDailyWealth table today
            ⟨totalWealth rates base (snapshotPrices cache) hs,
              totalCost rates base (snapshotPrices cache) hs, base⟩
    ∧ upsertDailyWealth (upsertDailyWealth table today r) today r'
        = upsertDailyWealth table today r' := by
  refine ⟨?_, rfl, rfl, ?_⟩
  · intro hfresh
    rw [totalWealth, totalWealth]
    refine congrArg List.sum (List.map_congr_left fun h hh => ?_)
    obtain ⟨e, he, hage⟩ := hfresh h hh
    refine marketValueOf_congr rates base _ _ h ?_
    simp [dashboardPrices, snapshotPrices, dashboardPrice, freshCached, he, hage]
  · rw [upsertDailyWealth, upsertDailyWealth, upsertDailyWealth,
      List.filter_append, List.filter_filter]
    simp

/-- Concrete instantiation of `daily_wealth_snapshot_behavior`: with a fresh
AAPL cache row the two wealth computations agree. -/
theorem daily_wealth_snapshot_behavior_witness :
    totalWealth [] "USD"
        (dashboardPrices
          (fun s => if s = "AAPL" then some ⟨"AAPL", 100, "USD", "Apple", 0, 0⟩ else none)
          100 (fun _ => some ⟨200, "USD", "Apple", 0⟩))
        [⟨"AAPL", 1, "Stock", "USD", 1, some 100⟩]
      = totalWealth [] "USD"
        (snapshotPrices
          (fun s => if s = "AAPL" then some ⟨"AAPL", 100, "USD", "Apple", 0, 0⟩ else none))
        [⟨"AAPL", 1, "Stock", "USD", 1, some 100⟩] :=
  (daily_wealth_snapshot_behavior
      (fun s => if s = "AAPL" then some ⟨"AAPL", 100, "USD", "Apple", 0, 0⟩ else none)
      100 (fun _ => some ⟨200, "USD", "Apple", 0⟩) [] "USD"
      [⟨"AAPL", 1, "Stock", "USD", 1, some 100⟩] [] 0 ⟨0, 0, ""⟩ ⟨0, 0, ""⟩).1
    (fun h hh => by
      rcases List.mem_cons.mp hh with rfl | h0
      · exact ⟨⟨"AAPL", 100, "USD", "Apple", 0, 0⟩, by simp, by norm_num⟩
      · cases h0)

/-! ## CSV import deduplication -/

/-- `toFixed(n)` rounding used inside the fingerprint string. -/
def roundDp (n : Nat) (q : ℚ) : ℚ := (⌊q * 10 ^ n + 1 / 2⌋ : ℚ) / 10 ^ n

/-- Modelled from the spec: the importer service (`src/services/importer`)
is not part of the provided source tree (only its tests and callers are).
Per §4.6 the fingerprint is
`account_id | symbol | type | quantity(8dp) | price(4dp) | date(day-only)`;
fee and notes are intentionally excluded. -/
structure Fingerprint where
  account_id : Nat
  symbol : String
  type : TxType
  quantity : ℚ
  price : ℚ
  date : Nat
  deriving DecidableEq, Repr

/-- Modelled from the spec: the fingerprint of one normalized row. -/
def fingerprint (r : Tx) : Fingerprint :=
  ⟨r.account_id, r.symbol, r.type, roundDp 8 r.quantity, roundDp 4 r.price, r.date⟩

/-- Modelled from the spec: the `imported`/`skipped` counters of a run. -/
structure ImportCount where
  imported : Nat
  skipped : Nat
  deriving DecidableEq, Repr

/-- Modelled from the spec: one import pass. The existing fingerprint set is
loaded once; each candidate is skipped when its fingerprint is already in
the set, otherwise inserted with its fingerprint added to the in-memory set
immediately, so duplicates within the same file are also caught. Returns
the counters and the final fingerprint set. -/
def importRows (existing : List Fingerprint) :
    List Tx → ImportCount × List Fingerprint
  | [] => (⟨0, 0⟩, existing)
  | r :: rs =>
    if fingerprint r ∈ existing then
      let rest := importRows existing rs
      (⟨rest.1.imported, rest.1.skipped + 1⟩, rest.2)
    else
      let rest := importRows (fingerprint r :: existing) rs
      (⟨rest.1.imported + 1, rest.1.skipped⟩, rest.2)

theorem importRows_all_dup (rows : List Tx) :
    ∀ existing : List Fingerprint, (∀ r ∈ rows, fingerprint r ∈ existing) →
      importRows existing rows = (⟨0, rows.length⟩, existing) := by
  induction rows with
  | nil => intro existing _; rfl
  | cons r rs ih =>
    intro existing hall
    have hr : fingerprint r ∈ existing := hall r (List.mem_cons_self r rs)
    have hih := ih existing (fun r' hr' => hall r' (List.mem_cons_of_mem r hr'))
    simp [importRows, hr, hih]

theorem importRows_set_mem (rows : List Tx) :
    ∀ existing : List Fingerprint, ∀ f,
      (f ∈ existing ∨ ∃ r ∈ rows, fingerprint r = f) →
      f ∈ (importRows existing rows).2 := by
  induction rows with
  | nil =>
    intro existing f hf
    rcases hf with hf | ⟨r, hr, _⟩
    · exact hf
    · cases hr
  | cons r rs ih =>
    intro existing f hf
    by_cases hr : fingerprint r ∈ existing
    · rw [importRows, if_pos hr]
      refine ih existing f ?_
      rcases hf with hf | ⟨r', hr', hfp⟩
      · exact Or.inl hf
      · rcases List.mem_cons.mp hr' with rfl | hr''
        · exact Or.inl (hfp ▸ hr)
        · exact Or.inr ⟨r', hr'', hfp⟩
    · rw [importRows, if_neg hr]
      refine ih (fingerprint r :: existing) f ?_
      rcases hf with hf | ⟨r', hr', hfp⟩
      · exact Or.inl (List.mem_cons_of_mem _ hf)
      · rcases List.mem_cons.mp hr' with rfl | hr''
        · exact Or.inl (hfp ▸ List.mem_cons_self _ _)
        · exact Or.inr ⟨r', hr'', hfp⟩

theorem importRows_all_new (rows : List Tx) :
    ∀ existing : List Fingerprint, (rows.map fingerprint).Nodup →
      (∀ r ∈ rows, fingerprint r ∉ existing) →
      (importRows existing rows).1 = ⟨rows.length, 0⟩ := by
  induction rows with
  | nil => intro existing _ _; rfl
  | cons r rs ih =>
    intro existing hnd hnew
    rw [List.map_cons, List.nodup_cons] at hnd
    have hr : fingerprint r ∉ existing := hnew r (List.mem_cons_self r rs)
    rw [importRows, if_neg hr]
    have : (importRows (fingerprint r :: existing) rs).1 = ⟨rs.length, 0⟩ := by
      refine ih _ hnd.2 fun r' hr' hmem => ?_
      rcases List.mem_cons.mp hmem with hfp | hmem'
      · exact hnd.1 (hfp ▸ List.mem_map_of_mem fingerprint hr')
      · exact hnew r' (List.mem_cons_of_mem r hr') hmem'
    simp [this, List.length_cons]

/-- **C9.** Deduplicated CSV import: a file of `N` rows with pairwise
distinct fingerprints none of which is already in the ledger imports all
`N` and skips none, and importing the identical file again against the
resulting fingerprint set imports 0 and skips `N`; two rows of one file
sharing a fingerprint (same account, symbol, type, rounded quantity and
price, and day) import exactly once with the other skipped; and fee and
notes do not enter the fingerprint, so rows differing only there collide. -/
theorem csv_import_dedup (existing : List Fingerprint) (rows : List Tx) :
    ((rows.map fingerprint).Nodup →
      (∀ r ∈ rows, fingerprint r ∉ existing) →
      (importRows existing rows).1 = ⟨rows.length, 0⟩
      ∧ (importRows (importRows existing rows).2 rows).1 = ⟨0, rows.length⟩)
    ∧ (∀ r1 r2 : Tx, fingerprint r1 = fingerprint r2 →
        fingerprint r1 ∉ existing →
        (importRows existing [r1, r2]).1 = ⟨1, 1⟩)
    ∧ (∀ (r : Tx) (f' : ℚ) (n' : String),
        fingerprint { r with fee := f', notes := n' } = fingerprint r) := by
  refine ⟨fun hnd hnew => ⟨importRows_all_new rows existing hnd hnew, ?_⟩, ?_, ?_⟩
  · have hall : ∀ r ∈ rows, fingerprint r ∈ (importRows existing rows).2 :=
      fun r hr => importRows_set_mem rows existing (fingerprint r)
        (Or.inr ⟨r, hr, rfl⟩)
    rw [importRows_all_dup rows _ hall]
  · intro r1 r2 hfp hnew
    have h2 : fingerprint r2 ∈ [fingerprint r1] ++ existing := by
      rw [← hfp]; exact List.mem_cons_self _ _
    rw [importRows, if_neg hnew, importRows, if_pos (by simpa using h2), importRows]
  · intro r f' n'
    rfl

/-- Concrete instantiation of `csv_import_dedup`: two rows identical except
for the fee import once and skip once from an empty ledger. -/
theorem csv_import_dedup_witness :
    (importRows [] [⟨1, "AAPL", .buy, 10, 371 / 2, 0, 20, ""⟩,
        ⟨1, "AAPL", .buy, 10, 371 / 2, 5, 20, ""⟩]).1 = ⟨1, 1⟩ := by
  have hfp : fingerprint ⟨1, "AAPL", .buy, 10, 371 / 2, 0, 20, ""⟩
      = fingerprint ⟨1, "AAPL", .buy, 10, 371 / 2, 5, 20, ""⟩ :=
    ((csv_import_dedup [] []).2.2 ⟨1, "AAPL", .buy, 10, 371 / 2, 0, 20, ""⟩ 5 "").symm
  exact (csv_import_dedup [] []).2.1
    ⟨1, "AAPL", .buy, 10, 371 / 2, 0, 20, ""⟩
    ⟨1, "AAPL", .buy, 10, 371 / 2, 5, 20, ""⟩ hfp (by simp)

end Capitrack
